import Mathlib

/-!
Verification of the DeepWiki-Like chunking / indexing / retrieval core
(`src/deepwiki/indexer.py`, `src/deepwiki/retriever.py`).

Python strings are modelled as lists of characters (`Str`), and string
positions as integers, so that Python's negative-index slice semantics can
be reproduced faithfully.
-/

/-- Python strings modelled as character lists. -/
abbrev Str := List Char

/-- The ASCII whitespace characters stripped by Python's `str.strip()`
(space, tab, newline, carriage return, form feed, vertical tab). -/
def isPySpace (c : Char) : Bool :=
  c = ' ' || c = '\t' || c = '\n' || c = '\x0d' || c = '\x0c' || c = '\x0b'

/-- Python `str.strip()`: drop leading and trailing whitespace. -/
def pyStrip (s : Str) : Str :=
  ((s.dropWhile isPySpace).reverse.dropWhile isPySpace).reverse

/-- Python `text.split("\n")` (single-character separator). -/
def pySplitNl (s : Str) : List Str :=
  s.splitOn '\n'

/-- Join a list of lines with newlines: Python `"\n".join(lines)`. -/
def joinNl (lines : List Str) : Str :=
  (['\n'] : Str).intercalate lines

/-- `re.match(r"^#{1,6}\s+.+$", line)` succeeds (for a line containing no
newline): the line starts with 1–6 `#` characters (and not a seventh),
followed by at least one whitespace character and at least one further
character. -/
def isHeader (line : Str) : Bool :=
  let hashes := line.takeWhile (· = '#')
  1 ≤ hashes.length && hashes.length ≤ 6 &&
    match line.drop hashes.length with
    | c :: rest => isPySpace c && rest.length ≥ 1
    | [] => false

/-- The accumulation loop of `DocumentChunker._split_by_headers`: consume
the remaining lines, carrying the lines of the chunk under construction. -/
def sbhAux : List Str → List Str → List Str
  | [], current => if current ≠ [] then [joinNl current] else []
  | line :: rest, current =>
    if isHeader line ∧ current ≠ [] then
      joinNl current :: sbhAux rest [line]
    else
      sbhAux rest (current ++ [line])

/-- `DocumentChunker._split_by_headers`: split text at Markdown ATX header
lines; a result with no chunks falls back to the whole text. -/
def split_by_headers (text : Str) : List Str :=
  let chunks := sbhAux (pySplitNl text) []
  if chunks ≠ [] then chunks else [text]

/-! ## Python slice and `rfind` semantics (integer indices) -/

/-- Clamp a (possibly negative) Python slice index into `[0, n]`:
negative indices count from the end of the string. -/
def clampIdx (n : Nat) (i : Int) : Nat :=
  let j : Int := if i < 0 then i + n else i
  if j < 0 then 0 else if j > (n : Int) then n else j.toNat

/-- Python `s[i:j]` for a string of characters. -/
def pySlice (s : Str) (i j : Int) : Str :=
  (s.take (clampIdx s.length j)).drop (clampIdx s.length i)

/-- Whether `sub` occurs in `s` starting at (non-negative) position `k`. -/
def matchesAt (s sub : Str) (k : Nat) : Bool :=
  (s.drop k).take sub.length == sub

/-- The candidate match positions of `rfind` inside the clamped range
`[a, b)`, in increasing order. -/
def pyRfindHits (s sub : Str) (a b : Nat) : List Nat :=
  (List.range (b + 1)).filter
    (fun k => a ≤ k && k + sub.length ≤ b && matchesAt s sub k)

/-- Python `s.rfind(sub, i, j)`: highest position of an occurrence of
`sub` lying entirely inside the clamped range `[i, j)`; `-1` if none. -/
def pyRfind (s sub : Str) (i j : Int) : Int :=
  match (pyRfindHits s sub (clampIdx s.length i) (clampIdx s.length j)).getLast? with
  | some k => (k : Int)
  | none => -1

/-- The cut position chosen by one iteration of
`DocumentChunker._split_by_size`: start from `start + chunk_size`, and if
that is short of the end of the text retreat to the last paragraph break
(`"\n\n"`), else to the last line break, when one lies past `start`. -/
def sizeCut (chunk_size : Nat) (text : Str) (start : Int) : Int :=
  let e : Int := start + chunk_size
  if e < text.length then
    let paragraph_break := pyRfind text ['\n', '\n'] start e
    if paragraph_break > start then paragraph_break
    else
      let newline := pyRfind text ['\n'] start e
      if newline > start then newline else e
  else e

/-- The loop of `DocumentChunker._split_by_size`, with explicit fuel since
the Python loop does not terminate on all inputs: while `start < len(text)`,
cut at `sizeCut`, emit the stripped slice, and retreat the next start by
`chunk_overlap`. -/
def splitBySizeAux (chunk_size chunk_overlap : Nat) (text : Str) :
    Nat → Int → List Str
  | 0, _ => []
  | fuel + 1, start =>
    if start < (text.length : Int) then
      let e := sizeCut chunk_size text start
      pyStrip (pySlice text start e) ::
        splitBySizeAux chunk_size chunk_overlap text fuel (e - chunk_overlap)
    else []

/-- `DocumentChunker._split_by_size` (fuel-indexed). -/
def split_by_size (chunk_size chunk_overlap : Nat) (fuel : Nat)
    (text : Str) : List Str :=
  splitBySizeAux chunk_size chunk_overlap text fuel 0

/-- The same loop recording the raw (untrimmed) window `[start, cut)` of
each emitted chunk instead of its text. -/
def splitBySizeWindows (chunk_size chunk_overlap : Nat) (text : Str) :
    Nat → Int → List (Int × Int)
  | 0, _ => []
  | fuel + 1, start =>
    if start < (text.length : Int) then
      let e := sizeCut chunk_size text start
      (start, e) ::
        splitBySizeWindows chunk_size chunk_overlap text fuel (e - chunk_overlap)
    else []

/-! ## Documents and chunks (`crawler.MarkdownDocument`, `DocumentChunker`) -/

/-- `crawler.MarkdownDocument`. -/
structure MarkdownDocument where
  path : Str
  content : Str
  url : Str
  repo_name : Str
deriving DecidableEq

/-- The metadata dictionary attached to each chunk by
`DocumentChunker.chunk_document`. -/
structure ChunkMeta where
  repo_name : Str
  file_path : Str
  url : Str
  chunk_index : Nat
  total_chunks : Nat
deriving DecidableEq

/-- A chunk dictionary (`{"text": ..., "metadata": ...}`). -/
structure Chunk where
  text : Str
  metadata : ChunkMeta
deriving DecidableEq

/-- `DocumentChunker.chunk_document`: header pass, then size pass for
oversized header segments, then metadata attachment. -/
def chunk_document (chunk_size chunk_overlap fuel : Nat)
    (document : MarkdownDocument) : List Chunk :=
  let chunks := split_by_headers document.content
  let final_chunks := chunks.flatMap (fun chunk_text =>
    if chunk_text.length > chunk_size then
      split_by_size chunk_size chunk_overlap fuel chunk_text
    else [chunk_text])
  final_chunks.enum.map (fun p =>
    { text := p.2
      metadata :=
        { repo_name := document.repo_name
          file_path := document.path
          url := document.url
          chunk_index := p.1
          total_chunks := final_chunks.length } })

/-! ## Retriever (`retriever.DocumentRetriever.search`) -/

/-- `retriever.SearchResult`; distances/scores are modelled as rationals. -/
structure SearchResult where
  text : Str
  metadata : ChunkMeta
  score : ℚ
deriving DecidableEq

/-- The reply of `collection.query` for a single query embedding: the
inner parallel arrays `documents[0]`, `metadatas[0]`, `distances[0]`. -/
structure QueryReply where
  documents : List Str
  metadatas : List ChunkMeta
  distances : List ℚ

/-- `DocumentRetriever.search`, given the store's reply: convert each
match to a `SearchResult` with score `1 - distance`. -/
def search (reply : QueryReply) : List SearchResult :=
  if reply.documents.isEmpty then []
  else
    (reply.documents.zip (reply.metadatas.zip reply.distances)).map
      (fun x => { text := x.1, metadata := x.2.1, score := 1 - x.2.2 })

/-! ## Vector store and `VectorIndexer` maintenance operations -/

/-- An indexed entry of the ChromaDB collection (the embedding vector is
irrelevant to the claims and omitted). ChromaDB keys entries by `id`. -/
structure Entry where
  id : Str
  text : Str
  metadata : ChunkMeta
deriving DecidableEq

/-- The collection's contents. -/
abbrev Store := List Entry

/-- `collection.get(where={"repo_name": repo_name})["ids"]`. -/
def storeGetIds (s : Store) (repo_name : Str) : List Str :=
  (s.filter (fun e => e.metadata.repo_name = repo_name)).map (fun e => e.id)

/-- `collection.delete(ids=ids)`: remove the entries keyed by `ids`. -/
def storeDelete (s : Store) (ids : List Str) : Store :=
  s.filter (fun e => decide (e.id ∉ ids))

/-- `VectorIndexer.clear_repository`: fetch the ids of the given
repository's entries and delete them; no-op when there are none. -/
def clear_repository (s : Store) (repo_name : Str) : Store :=
  let ids := storeGetIds s repo_name
  if ids ≠ [] then storeDelete s ids else s

/-- Lexicographic comparison of strings (Python `sorted` order on `str`). -/
def strLe : Str → Str → Bool
  | [], _ => true
  | _ :: _, [] => false
  | a :: xs, b :: ys => if a < b then true else if b < a then false else strLe xs ys

/-- Insertion into a `strLe`-sorted list. -/
def insertStr (x : Str) : List Str → List Str
  | [] => [x]
  | y :: ys => if strLe x y then x :: y :: ys else y :: insertStr x ys

/-- Insertion sort by `strLe` (Python `sorted`). -/
def sortStrs (l : List Str) : List Str := l.foldr insertStr []

/-- `VectorIndexer.list_repositories`: the distinct repository names of
the entries, sorted. -/
def list_repositories (s : Store) : List Str :=
  sortStrs ((s.map (fun e => e.metadata.repo_name)).dedup)

/-- The dictionary returned by `VectorIndexer.get_stats`. -/
structure Stats where
  total_chunks : Nat
  total_repositories : Nat
  repositories : List Str
deriving DecidableEq

/-- `VectorIndexer.get_stats`. -/
def get_stats (s : Store) : Stats :=
  let repos := list_repositories s
  { total_chunks := s.length
    total_repositories := repos.length
    repositories := repos }

/-! ## `VectorIndexer.index_documents`

The batching loop of `index_documents` builds, for each flushed batch,
`ids = [f"{chunk['metadata']['repo_name']}::{chunk['metadata']['file_path']}::{total_chunks + i}" for i in range(len(batch))]`.
In Python 3 the comprehension variables of the preceding `texts` and
`metadatas` comprehensions do not leak, and `chunk` has no other binding
in the function or module, so evaluating this comprehension over a
non-empty batch raises `NameError: name 'chunk' is not defined` before
anything is persisted.  The embedding returns `Except` accordingly. -/

/-- The error message raised by the ids comprehension. -/
def nameErrorChunk : String := "NameError: name 'chunk' is not defined"

/-- `batch_size = 25` in `index_documents`. -/
def batchSize : Nat := 25

/-- The inner `while` loop of `index_documents`: flush batches of
`batchSize` chunks while the buffer holds a full batch, or (for the last
document) while it is non-empty.  Executing a flush with a non-empty
batch evaluates the ids comprehension and raises `NameError`; on success
the loop would return the persisted ids, the remaining buffer and the
updated running total. -/
def flushLoop (isLast : Bool) (buffer : List Chunk) (total : Nat) :
    Except String (List Str × List Chunk × Nat) :=
  if batchSize ≤ buffer.length ∨ (isLast ∧ buffer ≠ []) then
    let batch := buffer.take batchSize
    if batch = [] then
      Except.ok ([], buffer.drop batchSize, total)
    else
      Except.error nameErrorChunk
  else
    Except.ok ([], buffer, total)

/-- The document loop of `index_documents`, operating on the chunk lists
the chunker returns for each document: extend the buffer with each
document's chunks and run the flush loop (the final document drains the
buffer).  Returns the persisted ids and the final chunk count. -/
def indexAux : List (List Chunk) → List Chunk → Nat →
    Except String (List Str × Nat)
  | [], _, total => Except.ok ([], total)
  | [chunks], buffer, total =>
    (flushLoop true (buffer ++ chunks) total).map (fun r => (r.1, r.2.2))
  | chunks :: rest, buffer, total => do
    let r ← flushLoop false (buffer ++ chunks) total
    let r2 ← indexAux rest r.2.1 r.2.2
    Except.ok (r.1 ++ r2.1, r2.2)

/-- `VectorIndexer.index_documents`, given the chunk lists produced per
document. -/
def index_documents (docsChunks : List (List Chunk)) :
    Except String (List Str × Nat) :=
  indexAux docsChunks [] 0

/-- Formalisation of the spec's reconstruction operator, following the
spec's words (not the source): the length of "the overlapping prefix it
shares with its predecessor" — the largest `k` such that the last `k`
characters of `prev` equal the first `k` characters of `cur`. -/
def specSharedOverlapLen (prev cur : Str) : Nat :=
  (((List.range (min prev.length cur.length + 1)).filter
    (fun k => prev.drop (prev.length - k) == cur.take k)).getLast?).getD 0

/-- Helper for `specReconstruct`: append each chunk after removing the
overlapping prefix it shares with its predecessor. -/
def specReconstructAux : Str → List Str → Str
  | _, [] => []
  | prev, c :: rest =>
    c.drop (specSharedOverlapLen prev c) ++ specReconstructAux c rest

/-- Formalisation of the spec's reconstruction operator, following the
spec's words: concatenate the chunk texts in order, removing from each
chunk the overlapping prefix it shares with its predecessor. -/
def specReconstruct : List Str → Str
  | [] => []
  | c :: rest => c ++ specReconstructAux c rest

/-! ## Helper lemmas -/

theorem head?_dropWhile_false {p : Char → Bool} {l : Str} {a : Char}
    (h : (l.dropWhile p).head? = some a) : p a = false := by
  induction l with
  | nil => simp at h
  | cons b t ih =>
    rw [List.dropWhile_cons] at h
    by_cases hb : p b
    · simp [hb] at h
      exact ih h
    · simp [hb] at h
      rw [← h]
      simpa using hb

theorem dropWhile_eq_self_of_head? {p : Char → Bool} {l : Str}
    (h : ∀ a, l.head? = some a → p a = false) : l.dropWhile p = l := by
  cases l with
  | nil => rfl
  | cons b t =>
    rw [List.dropWhile_cons]
    simp [h b rfl]

theorem getLast?_dropWhile {p : Char → Bool} {l : Str}
    (h : l.dropWhile p ≠ []) : (l.dropWhile p).getLast? = l.getLast? := by
  conv_rhs => rw [← List.takeWhile_append_dropWhile p l]
  rw [List.getLast?_append]
  cases hl : (l.dropWhile p).getLast? with
  | none => exact absurd (List.getLast?_eq_none_iff.mp hl) h
  | some a => rfl

theorem pyStrip_idem (s : Str) : pyStrip (pyStrip s) = pyStrip s := by
  unfold pyStrip
  have h1 : (((s.dropWhile isPySpace).reverse.dropWhile isPySpace).reverse).dropWhile
      isPySpace = ((s.dropWhile isPySpace).reverse.dropWhile isPySpace).reverse := by
    apply dropWhile_eq_self_of_head?
    intro a ha
    rw [List.head?_reverse] at ha
    have hne : (s.dropWhile isPySpace).reverse.dropWhile isPySpace ≠ [] := by
      intro hnil
      rw [hnil] at ha
      simp at ha
    rw [getLast?_dropWhile hne, List.getLast?_reverse] at ha
    exact head?_dropWhile_false ha
  rw [h1, List.reverse_reverse, List.dropWhile_idempotent]

theorem mem_splitBySizeAux {cs ov : Nat} {t : Str} :
    ∀ fuel start c, c ∈ splitBySizeAux cs ov t fuel start →
      ∃ a b, c = pyStrip (pySlice t a b) := by
  intro fuel
  induction fuel with
  | zero => intro start c h; simp [splitBySizeAux] at h
  | succ n ih =>
    intro start c h
    rw [splitBySizeAux] at h
    by_cases hs : start < (t.length : Int)
    · rw [if_pos hs] at h
      rcases List.mem_cons.mp h with h | h
      · exact ⟨start, sizeCut cs t start, h⟩
      · exact ih _ c h
    · rw [if_neg hs] at h
      simp at h

theorem joinNl_singleton (x : Str) : joinNl [x] = x := by
  simp [joinNl, List.intercalate]

theorem joinNl_cons (x : Str) (l : List Str) (h : l ≠ []) :
    joinNl (x :: l) = x ++ '\n' :: joinNl l := by
  cases l with
  | nil => exact absurd rfl h
  | cons y ys =>
    unfold joinNl List.intercalate
    rw [List.intersperse_cons_cons]
    simp

theorem joinNl_append : ∀ (a b : List Str), a ≠ [] → b ≠ [] →
    joinNl (a ++ b) = joinNl a ++ '\n' :: joinNl b := by
  intro a
  induction a with
  | nil => intro b h hb; exact absurd rfl h
  | cons x xs ih =>
    intro b _ hb
    by_cases hxs : xs = []
    · subst hxs
      rw [List.singleton_append, joinNl_cons x b hb, joinNl_singleton]
    · rw [List.cons_append,
        joinNl_cons x (xs ++ b) (by simp [hxs]),
        ih b hxs hb, joinNl_cons x xs hxs]
      simp

theorem sbhAux_ne_nil : ∀ (lines cur : List Str), cur ≠ [] →
    sbhAux lines cur ≠ [] := by
  intro lines
  induction lines with
  | nil => intro cur h; simp [sbhAux, h]
  | cons line rest ih =>
    intro cur h
    rw [sbhAux]
    split
    · simp
    · exact ih _ (by simp)

theorem sbhAux_join : ∀ (lines cur : List Str), cur ≠ [] →
    joinNl (sbhAux lines cur) = joinNl (cur ++ lines) := by
  intro lines
  induction lines with
  | nil => intro cur h; simp [sbhAux, h, joinNl_singleton]
  | cons line rest ih =>
    intro cur h
    rw [sbhAux]
    split
    · rw [joinNl_cons _ _ (sbhAux_ne_nil rest [line] (by simp)),
        ih [line] (by simp), List.singleton_append,
        joinNl_append cur (line :: rest) h (by simp)]
    · rw [ih (cur ++ [line]) (by simp)]
      simp

theorem split_by_headers_join (t : Str) : joinNl (split_by_headers t) = t := by
  unfold split_by_headers
  cases hl : pySplitNl t with
  | nil =>
    simp only [hl, sbhAux, ne_eq, not_true_eq_false, reduceIte, joinNl_singleton]
  | cons x rest =>
    have hstart : sbhAux (x :: rest) [] = sbhAux rest [x] := by
      rw [sbhAux, if_neg (by simp)]
      rfl
    have hne := sbhAux_ne_nil rest [x] (by simp)
    simp only [hl, hstart]
    rw [if_pos hne]
    rw [sbhAux_join rest [x] (by simp), List.singleton_append, ← hl]
    exact List.intercalate_splitOn t '\n'

theorem flatMap_small {cs ov fuel : Nat} : ∀ (l : List Str),
    (∀ c ∈ l, c.length ≤ cs) →
    (l.flatMap fun ct =>
      if ct.length > cs then split_by_size cs ov fuel ct else [ct]) = l := by
  intro l
  induction l with
  | nil => intro _; rfl
  | cons x xs ih =>
    intro h
    rw [List.flatMap_cons, if_neg (by
      have := h x (by simp)
      omega)]
    rw [ih (fun c hc => h c (by simp [hc]))]
    rfl

theorem clampIdx_le_length (n : Nat) (i : Int) : clampIdx n i ≤ n := by
  simp only [clampIdx]
  split_ifs <;> omega

theorem clampIdx_sub_le (n : Nat) (i : Int) (c : Nat) :
    clampIdx n (i + c) - clampIdx n i ≤ c := by
  simp only [clampIdx]
  split_ifs <;> omega

theorem clampIdx_coe {n k : Nat} (h : k ≤ n) : clampIdx n k = k := by
  simp only [clampIdx]
  split_ifs <;> omega

theorem pySlice_length (s : Str) (i j : Int) :
    (pySlice s i j).length = clampIdx s.length j - clampIdx s.length i := by
  simp only [pySlice, List.length_drop, List.length_take]
  rw [Nat.min_eq_left (clampIdx_le_length _ _)]

theorem pyStrip_length_le (s : Str) : (pyStrip s).length ≤ s.length := by
  unfold pyStrip
  have h1 := (List.dropWhile_sublist (l := s) isPySpace).length_le
  have h2 := (List.dropWhile_sublist
    (l := (s.dropWhile isPySpace).reverse) isPySpace).length_le
  simp only [List.length_reverse] at h2 ⊢
  omega

theorem pyRfind_spec (s sub : Str) (i j : Int) :
    pyRfind s sub i j = -1 ∨
    ∃ k : Nat, pyRfind s sub i j = (k : Int) ∧
      clampIdx s.length i ≤ k ∧ k ≤ clampIdx s.length j := by
  unfold pyRfind
  cases hg : (pyRfindHits s sub (clampIdx s.length i)
      (clampIdx s.length j)).getLast? with
  | none => left; rfl
  | some k =>
    right
    have hk := List.mem_of_getLast?_eq_some hg
    rw [pyRfindHits, List.mem_filter] at hk
    have hp := hk.2
    simp only [Bool.and_eq_true, decide_eq_true_eq] at hp
    exact ⟨k, rfl, hp.1.1, by omega⟩

theorem sizeCut_cases (cs : Nat) (t : Str) (start : Int) :
    sizeCut cs t start = start + cs ∨
    (sizeCut cs t start = -1 ∧ start < -1) ∨
    ∃ k : Nat, sizeCut cs t start = (k : Int) ∧
      clampIdx t.length start ≤ k ∧ (k : Int) > start ∧
      k ≤ clampIdx t.length (start + cs) := by
  unfold sizeCut
  by_cases h1 : start + (cs : Int) < (t.length : Int)
  · rw [if_pos h1]
    rcases pyRfind_spec t ['\n', '\n'] start (start + cs) with hpb | ⟨k1, hpb, ha1, hb1⟩
    · rw [hpb]
      by_cases h2 : (-1 : Int) > start
      · rw [if_pos h2]
        exact Or.inr (Or.inl ⟨rfl, by omega⟩)
      · rw [if_neg h2]
        rcases pyRfind_spec t ['\n'] start (start + cs) with hnl | ⟨k2, hnl, ha2, hb2⟩
        · rw [hnl, if_neg h2]
          exact Or.inl rfl
        · rw [hnl]
          by_cases h3 : (k2 : Int) > start
          · rw [if_pos h3]
            exact Or.inr (Or.inr ⟨k2, rfl, ha2, h3, hb2⟩)
          · rw [if_neg h3]
            exact Or.inl rfl
    · rw [hpb]
      by_cases h2 : (k1 : Int) > start
      · rw [if_pos h2]
        exact Or.inr (Or.inr ⟨k1, rfl, ha1, h2, hb1⟩)
      · rw [if_neg h2]
        rcases pyRfind_spec t ['\n'] start (start + cs) with hnl | ⟨k2, hnl, ha2, hb2⟩
        · rw [hnl]
          by_cases h3 : (-1 : Int) > start
          · rw [if_pos h3]
            exact Or.inr (Or.inl ⟨rfl, by omega⟩)
          · rw [if_neg h3]
            exact Or.inl rfl
        · rw [hnl]
          by_cases h3 : (k2 : Int) > start
          · rw [if_pos h3]
            exact Or.inr (Or.inr ⟨k2, rfl, ha2, h3, hb2⟩)
          · rw [if_neg h3]
            exact Or.inl rfl
  · rw [if_neg h1]
    exact Or.inl rfl

theorem chunk_slice_len {cs ov : Nat} {t : Str} {start : Int}
    (hov : ov < cs) (hstart : -(1 + (ov : Int)) ≤ start) :
    (pyStrip (pySlice t start (sizeCut cs t start))).length ≤ cs := by
  refine le_trans (pyStrip_length_le _) ?_
  rw [pySlice_length]
  rcases sizeCut_cases cs t start with h | ⟨h, hlt⟩ | ⟨k, h, hak, _, hbk⟩
  · rw [h]
    exact clampIdx_sub_le _ _ _
  · rw [h]
    simp only [clampIdx]
    split_ifs <;> omega
  · rw [h]
    rw [clampIdx_coe (le_trans hbk (clampIdx_le_length _ _))]
    have := clampIdx_sub_le t.length start cs
    omega

theorem sizeCut_lower {cs ov : Nat} (t : Str) (start : Int)
    (hov : ov < cs) (hstart : -(1 + (ov : Int)) ≤ start) :
    -1 ≤ sizeCut cs t start := by
  rcases sizeCut_cases cs t start with h | ⟨h, _⟩ | ⟨k, h, _, _, _⟩ <;>
    rw [h] <;> omega

theorem splitBySizeAux_bound {cs ov : Nat} {t : Str} (hov : ov < cs) :
    ∀ (fuel : Nat) (start : Int), -(1 + (ov : Int)) ≤ start →
      ∀ c ∈ splitBySizeAux cs ov t fuel start, c.length ≤ cs := by
  intro fuel
  induction fuel with
  | zero => intro start _ c hc; simp [splitBySizeAux] at hc
  | succ n ih =>
    intro start hstart c hc
    rw [splitBySizeAux] at hc
    by_cases hs : start < (t.length : Int)
    · rw [if_pos hs] at hc
      rcases List.mem_cons.mp hc with h | h
      · rw [h]
        exact chunk_slice_len hov hstart
      · exact ih (sizeCut cs t start - ov)
          (by have := sizeCut_lower t start hov hstart; omega)
          c h
    · rw [if_neg hs] at hc
      simp at hc

theorem snd_mem_of_mem_enumFrom {α : Type} :
    ∀ (l : List α) (n : Nat) (p : Nat × α), p ∈ l.enumFrom n → p.2 ∈ l := by
  intro l
  induction l with
  | nil => intro n p h; simp [List.enumFrom] at h
  | cons x xs ih =>
    intro n p h
    rw [List.enumFrom] at h
    rcases List.mem_cons.mp h with h | h
    · rw [h]
      exact List.mem_cons_self _ _
    · exact List.mem_cons_of_mem _ (ih (n + 1) p h)

theorem splitBySizeWindows_head {cs ov : Nat} {t : Str} :
    ∀ (fuel : Nat) (start : Int) (w : Int × Int),
      (splitBySizeWindows cs ov t fuel start).head? = some w → w.1 = start := by
  intro fuel start w h
  cases fuel with
  | zero => simp [splitBySizeWindows] at h
  | succ n =>
    rw [splitBySizeWindows] at h
    by_cases hs : start < (t.length : Int)
    · rw [if_pos hs] at h
      rw [List.head?_cons, Option.some.injEq] at h
      rw [← h]
    · rw [if_neg hs] at h
      simp at h

theorem splitBySizeAux_eq_windows (cs ov : Nat) (t : Str) :
    ∀ (fuel : Nat) (start : Int),
      splitBySizeAux cs ov t fuel start =
        (splitBySizeWindows cs ov t fuel start).map
          (fun w => pyStrip (pySlice t w.1 w.2)) := by
  intro fuel
  induction fuel with
  | zero => intro start; rfl
  | succ n ih =>
    intro start
    rw [splitBySizeAux, splitBySizeWindows]
    by_cases hs : start < (t.length : Int)
    · rw [if_pos hs, if_pos hs]
      dsimp only
      rw [ih, List.map_cons]
    · rw [if_neg hs, if_neg hs]
      rfl

theorem splitBySizeWindows_chain (cs ov : Nat) (t : Str) :
    ∀ (fuel : Nat) (start : Int),
      (splitBySizeWindows cs ov t fuel start).Chain'
        (fun v w : Int × Int => w.1 = v.2 - (ov : Int)) := by
  intro fuel
  induction fuel with
  | zero => intro start; simp [splitBySizeWindows]
  | succ n ih =>
    intro start
    rw [splitBySizeWindows]
    by_cases hs : start < (t.length : Int)
    · rw [if_pos hs]
      dsimp only
      rw [List.chain'_cons']
      refine ⟨?_, ih _⟩
      intro w hw
      exact splitBySizeWindows_head n _ w hw
    · rw [if_neg hs]
      simp

theorem clear_repository_of_absent {s : Store} {X : Str}
    (h : s.filter (fun e => e.metadata.repo_name = X) = []) :
    clear_repository s X = s := by
  unfold clear_repository storeGetIds
  rw [h]
  simp

theorem filter_clear_repository (s : Store) (X : Str) :
    (clear_repository s X).filter (fun e => e.metadata.repo_name = X) = [] := by
  unfold clear_repository
  by_cases h : storeGetIds s X = []
  · rw [if_neg (by simp [h])]
    unfold storeGetIds at h
    rw [List.map_eq_nil_iff] at h
    exact h
  · rw [if_pos h]
    rw [List.filter_eq_nil_iff]
    intro e he hrepo
    unfold storeDelete at he
    rw [List.mem_filter] at he
    have hin : e.id ∈ storeGetIds s X := by
      unfold storeGetIds
      exact List.mem_map_of_mem _ (List.mem_filter.mpr ⟨he.1, hrepo⟩)
    have := he.2
    simp at this
    exact this hin

/-! ## Claim theorems -/

/-- C7: the document with content `"# A\nfoo bar\n# B\nbaz"` and chunk
size 1000 (any overlap, any fuel: the size pass is not invoked) yields
exactly two chunks, `"# A\nfoo bar"` with `index=0,total=2` and
`"# B\nbaz"` with `index=1,total=2`. -/
theorem c7_concrete_two_chunks (p u r : Str) (ov fuel : Nat) :
    chunk_document 1000 ov fuel ⟨p, ("# A\nfoo bar\n# B\nbaz").data, u, r⟩ =
      [{ text := ("# A\nfoo bar").data,
         metadata := ⟨r, p, u, 0, 2⟩ },
       { text := ("# B\nbaz").data,
         metadata := ⟨r, p, u, 1, 2⟩ }] := by
  rfl

/-- C10: the claim that the sliding-window cursor of `_split_by_size`
strictly advances is false: with chunk size 4 and overlap 2 (a valid
configuration, `0 ≤ 2 < 4`) on the text `"abc\ndef"`, the cut retreats to
the newline at position 3 and the next start is `3 - 2 = 1` forever, so
the Python loop never terminates.  In the fuel-indexed embedding the
output has exactly `fuel` chunks for every fuel. -/
theorem c10_split_by_size_nontermination (fuel : Nat) :
    (split_by_size 4 2 fuel ("abc\ndef").data).length = fuel := by
  have hcut1 : sizeCut 4 ("abc\ndef").data 1 = 3 := by decide
  have h32 : (3 : Int) - ((2 : Nat) : Int) = 1 := by decide
  have hstep : ∀ n, (splitBySizeAux 4 2 ("abc\ndef").data n 1).length = n := by
    intro n
    induction n with
    | zero => rfl
    | succ m ih =>
      rw [splitBySizeAux, if_pos (by decide), hcut1]
      show _ + 1 = m + 1
      rw [h32, ih]
  cases fuel with
  | zero => rfl
  | succ m =>
    rw [split_by_size, splitBySizeAux, if_pos (by decide)]
    have hcut0 : sizeCut 4 ("abc\ndef").data 0 = 3 := by decide
    rw [hcut0]
    show _ + 1 = m + 1
    rw [h32, hstep]

/-- C5: the claim describes the intended id scheme, but the code never
produces any id: the ids list comprehension in `index_documents` iterates
`for i in range(len(batch))` while referencing `chunk`, which is unbound
there (Python 3 comprehension variables do not leak), so the first flush
of any non-empty batch raises `NameError: name 'chunk' is not defined`
before anything is persisted.  Indexing zero documents flushes nothing
and succeeds with count 0. -/
theorem c5_index_ids_name_error :
    index_documents
        [[{ text := ("hello").data,
            metadata := ⟨("r").data, ("p").data, ("u").data, 0, 1⟩ }]] =
      Except.error nameErrorChunk ∧
    index_documents [] = Except.ok ([], 0) :=
  ⟨rfl, rfl⟩

/-- C6 counterexample: on the empty document the Segmenter does not
return an empty sequence; it returns exactly one chunk whose text is the
empty string (with `index=0,total=1`). -/
theorem c6_counterexample :
    chunk_document 1000 200 5 ⟨[], [], [], []⟩ =
      [{ text := [], metadata := ⟨[], [], [], 0, 1⟩ }] ∧
    chunk_document 1000 200 5 ⟨[], [], [], []⟩ ≠ [] := by
  constructor
  · decide
  · decide

/-- C6 amended: for the empty document the Segmenter returns exactly one
chunk, whose text is the empty string (the empty chunk is not suppressed,
and header-pass chunks are not trimmed); only chunks emitted by the size
pass are trimmed of leading/trailing whitespace (each equals its own
trimmed form). -/
theorem c6_empty_doc_amended :
    (∀ cs ov fuel p u r, chunk_document cs ov fuel ⟨p, [], u, r⟩ =
      [{ text := [], metadata := ⟨r, p, u, 0, 1⟩ }]) ∧
    (∀ cs ov fuel t c, c ∈ split_by_size cs ov fuel t → pyStrip c = c) := by
  constructor
  · intro cs ov fuel p u r
    have h : split_by_headers ([] : Str) = [[]] := by decide
    simp [chunk_document, h, Nat.not_lt_zero]
  · intro cs ov fuel t c hc
    obtain ⟨a, b, rfl⟩ := mem_splitBySizeAux fuel 0 c hc
    exact pyStrip_idem _

/-- Witness for the amended C6 statement at concrete inputs. -/
theorem c6_empty_doc_amended_witness :
    chunk_document 1000 200 5 ⟨[], [], [], []⟩ =
      [{ text := [], metadata := ⟨[], [], [], 0, 1⟩ }] ∧
    pyStrip ("abc").data = ("abc").data :=
  ⟨c6_empty_doc_amended.1 1000 200 5 [] [] [],
   c6_empty_doc_amended.2 4 2 10 ("abc ef").data ("abc").data (by decide)⟩

/-- C8: given the store invariant that entry ids are pairwise distinct
(ChromaDB keys entries by id), `clear_repository X` deletes exactly the
entries whose `repo_name` is `X`: the result is the store filtered to the
other entries (in order), no `X` entry remains, and every other
repository's entries (hence counts) are untouched. -/
theorem c8_clear_repository_exact (s : Store) (X : Str)
    (hids : (s.map (fun e => e.id)).Nodup) :
    clear_repository s X = s.filter (fun e => e.metadata.repo_name ≠ X) ∧
    (∀ e ∈ clear_repository s X, e.metadata.repo_name ≠ X) ∧
    (∀ Y, Y ≠ X →
      (clear_repository s X).filter (fun e => e.metadata.repo_name = Y) =
        s.filter (fun e => e.metadata.repo_name = Y)) := by
  have hinj := List.inj_on_of_nodup_map hids
  have hmain : clear_repository s X =
      s.filter (fun e => e.metadata.repo_name ≠ X) := by
    unfold clear_repository
    by_cases h : storeGetIds s X = []
    · rw [if_neg (by simp [h])]
      unfold storeGetIds at h
      rw [List.map_eq_nil_iff, List.filter_eq_nil_iff] at h
      symm
      rw [List.filter_eq_self]
      intro e he
      simpa using h e he
    · rw [if_pos h]
      unfold storeDelete
      apply List.filter_congr
      intro e he
      simp only [decide_eq_decide]
      constructor
      · intro hid hrepo
        apply hid
        unfold storeGetIds
        exact List.mem_map_of_mem _ (List.mem_filter.mpr ⟨he, by simp [hrepo]⟩)
      · intro hrepo hid
        unfold storeGetIds at hid
        rw [List.mem_map] at hid
        obtain ⟨e2, he2, hee⟩ := hid
        rw [List.mem_filter] at he2
        have : e2 = e := hinj he2.1 he hee
        rw [← this] at hrepo
        exact hrepo (by simpa using he2.2)
  refine ⟨hmain, ?_, ?_⟩
  · intro e he
    rw [hmain, List.mem_filter] at he
    simpa using he.2
  · intro Y hYX
    rw [hmain, List.filter_filter]
    apply List.filter_congr
    intro e _
    by_cases hY : e.metadata.repo_name = Y
    · have hX : e.metadata.repo_name ≠ X := by rw [hY]; exact hYX
      simp [hY, hX, hYX]
    · simp [hY]

/-- Witness for C8 at a concrete two-repository store. -/
theorem c8_clear_repository_exact_witness :
    clear_repository
        [{ id := ("i1").data, text := ("t1").data,
           metadata := ⟨("A").data, [], [], 0, 1⟩ },
         { id := ("i2").data, text := ("t2").data,
           metadata := ⟨("B").data, [], [], 0, 1⟩ }] (("A").data) =
      [{ id := ("i2").data, text := ("t2").data,
         metadata := ⟨("B").data, [], [], 0, 1⟩ }] := by
  rw [(c8_clear_repository_exact _ (("A").data) (by decide)).1]
  decide

/-- C9: `clear_repository` is total and idempotent: when the store has no
entry of repository `X` it returns the store unchanged (raising no
error), and a second `clear_repository X` after a first is a no-op, so
`stats()` is unchanged by the second call. -/
theorem c9_clear_idempotent (s : Store) (X : Str) :
    (s.filter (fun e => e.metadata.repo_name = X) = [] →
      clear_repository s X = s) ∧
    clear_repository (clear_repository s X) X = clear_repository s X ∧
    get_stats (clear_repository (clear_repository s X) X) =
      get_stats (clear_repository s X) := by
  have h2 : clear_repository (clear_repository s X) X = clear_repository s X :=
    clear_repository_of_absent (filter_clear_repository s X)
  exact ⟨fun h => clear_repository_of_absent h, h2, congrArg get_stats h2⟩

theorem zip3_score_map :
    ∀ (ds : List Str) (ms : List ChunkMeta) (qs : List ℚ),
      ms.length = ds.length → qs.length = ds.length →
      ((ds.zip (ms.zip qs)).map
          (fun x => ({ text := x.1, metadata := x.2.1, score := 1 - x.2.2 }
            : SearchResult))).map (fun r => r.score) =
        qs.map (fun d => 1 - d)
  | [], [], [], _, _ => rfl
  | d :: ds, m :: ms, q :: qs, hm, hq => by
    simp only [List.zip_cons_cons, List.map_cons]
    rw [zip3_score_map ds ms qs (by simpa using hm) (by simpa using hq)]

/-- C4: assuming the store returns at most `top_k` matches with parallel
metadata/distance arrays ordered by ascending distance, `search` returns
at most `top_k` results, each with score `1 - d`, in non-increasing score
order; an empty reply (empty store) yields the empty sequence. -/
theorem c4_search_contract (top_k : Nat) (reply : QueryReply)
    (hm : reply.metadatas.length = reply.documents.length)
    (hd : reply.distances.length = reply.documents.length)
    (hk : reply.documents.length ≤ top_k)
    (hsorted : reply.distances.Chain' (· ≤ ·)) :
    (search reply).length ≤ top_k ∧
    (search reply).map (fun r => r.score) =
      reply.distances.map (fun d => 1 - d) ∧
    ((search reply).map (fun r => r.score)).Chain' (· ≥ ·) ∧
    (reply.documents = [] → search reply = []) := by
  have hscores : (search reply).map (fun r => r.score) =
      reply.distances.map (fun d => 1 - d) := by
    unfold search
    by_cases hempty : reply.documents.isEmpty
    · rw [if_pos hempty]
      rw [List.isEmpty_iff] at hempty
      have : reply.distances = [] := List.eq_nil_of_length_eq_zero (by
        rw [hd, hempty]; rfl)
      rw [this]
      rfl
    · rw [if_neg hempty]
      exact zip3_score_map reply.documents reply.metadatas reply.distances hm hd
  refine ⟨?_, hscores, ?_, ?_⟩
  · unfold search
    by_cases hempty : reply.documents.isEmpty
    · rw [if_pos hempty]; exact Nat.zero_le _
    · rw [if_neg hempty]
      rw [List.length_map]
      calc (reply.documents.zip (reply.metadatas.zip reply.distances)).length
          ≤ reply.documents.length := by
            rw [List.length_zip]; exact Nat.min_le_left _ _
        _ ≤ top_k := hk
  · rw [hscores, List.chain'_map]
    exact hsorted.imp (fun a b hab => by
      show 1 - a ≥ 1 - b
      exact sub_le_sub_left hab 1)
  · intro hnil
    unfold search
    rw [if_pos (by rw [hnil]; rfl)]

/-- Witness for C4 at a concrete two-match reply. -/
theorem c4_search_contract_witness :
    (search ⟨[("d1").data, ("d2").data],
        [⟨("A").data, [], [], 0, 2⟩, ⟨("A").data, [], [], 1, 2⟩],
        [0, 1]⟩).map (fun r => r.score) = [1, 0] := by
  have h := (c4_search_contract 2
    ⟨[("d1").data, ("d2").data],
      [⟨("A").data, [], [], 0, 2⟩, ⟨("A").data, [], [], 1, 2⟩],
      [0, 1]⟩ rfl rfl (by decide) (by simp)).2.1
  rw [h]
  simp

/-- C1 counterexample: for the document `"# A\nx\n# B\ny"` (chunk size
1000, so only the header pass acts) the Segmenter's chunks are
`"# A\nx"` and `"# B\ny"`; they share no overlap, and concatenating them
(after removing the empty shared overlap) gives `"# A\nx# B\ny"`, which
differs from the original content even after whitespace trimming — the
newline joining the two header segments is lost. -/
theorem c1_counterexample :
    (chunk_document 1000 200 5
        ⟨[], ("# A\nx\n# B\ny").data, [], []⟩).map (fun c => c.text) =
      [("# A\nx").data, ("# B\ny").data] ∧
    specReconstruct [("# A\nx").data, ("# B\ny").data] =
      ("# A\nx# B\ny").data ∧
    pyStrip (specReconstruct ((chunk_document 1000 200 5
        ⟨[], ("# A\nx\n# B\ny").data, [], []⟩).map (fun c => c.text))) ≠
      pyStrip (("# A\nx\n# B\ny").data) := by
  refine ⟨by decide, by decide, by decide⟩

/-- C1 amended: for any document all of whose header-pass segments fit
within the configured chunk size (so the size pass is not invoked),
joining the Segmenter's chunk texts in order with single newline
separators reproduces the document's original content exactly.  (Plain
concatenation after overlap removal does not: the header pass drops the
newline between segments, and the size pass additionally trims chunks.) -/
theorem c1_reconstruction_amended (cs ov fuel : Nat) (d : MarkdownDocument)
    (h : ∀ c ∈ split_by_headers d.content, c.length ≤ cs) :
    joinNl ((chunk_document cs ov fuel d).map (fun c => c.text)) =
      d.content := by
  unfold chunk_document
  simp only [flatMap_small _ h, List.map_map]
  have hcomp : ∀ (n : Nat),
      ((fun c : Chunk => c.text) ∘ (fun p : Nat × Str =>
        ({ text := p.2,
           metadata := ⟨d.repo_name, d.path, d.url, p.1, n⟩ } : Chunk))) =
        Prod.snd := fun _ => rfl
  rw [hcomp, List.enum_map_snd]
  exact split_by_headers_join _

/-- Witness for the amended C1 statement at a concrete document. -/
theorem c1_reconstruction_amended_witness :
    joinNl ((chunk_document 1000 200 5
        ⟨[], ("# A\nfoo").data, [], []⟩).map (fun c => c.text)) =
      ("# A\nfoo").data :=
  c1_reconstruction_amended 1000 200 5 _ (by decide)

/-- C2: for every document and any valid configuration
(`overlap < chunk_size`, which the spec's configuration validation
guarantees), every chunk produced by the Segmenter has length at most
`chunk_size` — the exception for unsplittable structural segments is
never needed, since oversized header segments are always re-split by the
size pass, whose chunks are slices of at most `chunk_size` characters
(then trimmed); in particular every size-pass chunk is within the
bound. -/
theorem c2_size_bound (cs ov fuel : Nat) (d : MarkdownDocument)
    (hov : ov < cs) :
    ∀ c ∈ chunk_document cs ov fuel d, c.text.length ≤ cs := by
  intro c hc
  unfold chunk_document at hc
  rw [List.mem_map] at hc
  obtain ⟨p, hp, hpc⟩ := hc
  have hsnd : p.2 ∈ (split_by_headers d.content).flatMap (fun chunk_text =>
      if chunk_text.length > cs then
        split_by_size cs ov fuel chunk_text
      else [chunk_text]) :=
    snd_mem_of_mem_enumFrom _ 0 p hp
  have htext : c.text = p.2 := by rw [← hpc]
  rw [htext]
  rcases List.mem_flatMap.mp hsnd with ⟨ct, _, hmem⟩
  by_cases hlen : ct.length > cs
  · rw [if_pos hlen] at hmem
    exact splitBySizeAux_bound hov fuel 0 (by omega) p.2 hmem
  · rw [if_neg hlen] at hmem
    rw [List.mem_singleton] at hmem
    rw [hmem]
    omega

/-- Witness for C2: the first size-pass chunk of the headerless document
`"abcdef"` with chunk size 4, overlap 1 is `"abcd"`, of length 4 ≤ 4. -/
theorem c2_size_bound_witness :
    ({ text := ("abcd").data, metadata := ⟨[], [], [], 0, 2⟩ } : Chunk).text.length ≤ 4 :=
  c2_size_bound 4 1 5 ⟨[], ("abcdef").data, [], []⟩ (by decide) _ (by decide)

/-- C3 counterexample: the size pass on `"abc ef"` with chunk size 4 and
overlap 2 produces chunks `["abc", "c ef", "ef"]`; the last 2 characters
of chunk 0 are `"bc"` but chunk 1 begins with `"c "` — trimming the cut
window (`"abc "` → `"abc"`) broke the claimed character-level overlap
between adjacent chunks. -/
theorem c3_counterexample :
    split_by_size 4 2 10 ("abc ef").data =
      [("abc").data, ("c ef").data, ("ef").data] ∧
    ("abc").data.drop (("abc").data.length - 2) ≠ ("c ef").data.take 2 := by
  refine ⟨by decide, by decide⟩

/-- C3 amended: each size-pass chunk is the trimmed slice of a raw
window `[start, cut)` of the text, and for adjacent chunks the raw
window of chunk `i+1` begins exactly `overlap` characters before the end
of the raw window of chunk `i` (so the raw windows share an `overlap`
span); after the per-chunk trimming, the character-level form of the
overlap claim can fail. -/
theorem c3_overlap_amended (cs ov : Nat) (t : Str) (fuel : Nat) :
    split_by_size cs ov fuel t =
      (splitBySizeWindows cs ov t fuel 0).map
        (fun w => pyStrip (pySlice t w.1 w.2)) ∧
    (splitBySizeWindows cs ov t fuel 0).Chain'
      (fun v w : Int × Int => w.1 = v.2 - (ov : Int)) :=
  ⟨splitBySizeAux_eq_windows cs ov t fuel 0,
   splitBySizeWindows_chain cs ov t fuel 0⟩

/-- Witness for C9 at a concrete store with no `"A"` entries. -/
theorem c9_clear_idempotent_witness :
    clear_repository
        [{ id := ("i2").data, text := ("t2").data,
           metadata := ⟨("B").data, [], [], 0, 1⟩ }] (("A").data) =
      [{ id := ("i2").data, text := ("t2").data,
         metadata := ⟨("B").data, [], [], 0, 1⟩ }] :=
  (c9_clear_idempotent _ (("A").data)).1 (by decide)
